import Mathlib

/-!
Verification of the AI Council frontend (React) and, where the backend
orchestration core is not part of the sources, a model of that core built
from the specification.  Strings are embedded as `List Char`; JavaScript
functions become total Lean functions over that representation.
-/

set_option maxHeartbeats 1000000

/-- Character-list strings, the shallow embedding of JS strings. -/
abbrev Str := List Char

/-- Convert a Lean string literal to the embedding. -/
def toL (s : String) : Str := s.toList

/-! ### Generic list helpers shared by several components -/

/-- Replace only the last element of a list (JS mutation of `messages[messages.length-1]`
followed by returning the shallow-copied array). The empty list is left unchanged. -/
def updateLast (f : α → α) : List α → List α
  | [] => []
  | [a] => [f a]
  | a :: b :: t => a :: updateLast f (b :: t)

theorem updateLast_length (f : α → α) (l : List α) :
    (updateLast f l).length = l.length := by
  induction l with
  | nil => rfl
  | cons a t ih =>
    cases t with
    | nil => rfl
    | cons b t' => simpa [updateLast] using ih

theorem updateLast_dropLast (f : α → α) (l : List α) :
    (updateLast f l).dropLast = l.dropLast := by
  induction l with
  | nil => rfl
  | cons a t ih =>
    cases t with
    | nil => rfl
    | cons b t' =>
      have hne : updateLast f (b :: t') ≠ [] := by
        have := updateLast_length f (b :: t')
        intro h
        rw [h] at this
        simp at this
      simp only [updateLast]
      rw [List.dropLast_cons_of_ne_nil hne, List.dropLast_cons_of_ne_nil (by simp)]
      rw [ih]

theorem updateLast_append_two (f : α → α) (xs : List α) (a b : α) :
    updateLast f (xs ++ [a, b]) = xs ++ [a, f b] := by
  induction xs with
  | nil => rfl
  | cons x t ih =>
    have h1 : (x :: t) ++ [a, b] = x :: (t ++ [a, b]) := rfl
    rw [h1]
    cases h : t ++ [a, b] with
    | nil => simp at h
    | cons y ys =>
      simp only [updateLast, ← h, ih]
      rfl

/-- Split a char list on a separator character, JS `String.prototype.split` with a
single-character separator: always returns at least one (possibly empty) piece. -/
def splitOnChar (sep : Char) : Str → List Str
  | [] => [[]]
  | c :: cs =>
    if c = sep then [] :: splitOnChar sep cs
    else
      match splitOnChar sep cs with
      | [] => [[c]]
      | l :: ls => (c :: l) :: ls

theorem splitOnChar_ne_nil (sep : Char) (s : Str) : splitOnChar sep s ≠ [] := by
  cases s with
  | nil => simp [splitOnChar]
  | cons c cs =>
    simp only [splitOnChar]
    by_cases h : c = sep
    · simp [h]
    · simp only [if_neg h]
      cases splitOnChar sep cs <;> simp

theorem splitOnChar_no_sep (sep : Char) (s : Str) :
    ∀ piece ∈ splitOnChar sep s, sep ∉ piece := by
  induction s with
  | nil =>
    intro p hp
    simp only [splitOnChar, List.mem_singleton] at hp
    simp [hp]
  | cons c cs ih =>
    intro p hp
    simp only [splitOnChar] at hp
    by_cases h : c = sep
    · rw [if_pos h] at hp
      rcases List.mem_cons.mp hp with hp | hp
      · simp [hp]
      · exact ih p hp
    · rw [if_neg h] at hp
      cases hsp : splitOnChar sep cs with
      | nil => exact absurd hsp (splitOnChar_ne_nil sep cs)
      | cons l ls =>
        rw [hsp] at hp
        rcases List.mem_cons.mp hp with hp | hp
        · subst hp
          intro hmem
          rcases List.mem_cons.mp hmem with hmem | hmem
          · exact h hmem.symm
          · exact ih l (by rw [hsp]; exact List.mem_cons_self l ls) hmem
        · exact ih p (by rw [hsp]; exact List.mem_cons_of_mem l hp)

/-- If a piece contains no separator, splitting it yields just that piece. -/
theorem splitOnChar_of_no_sep (sep : Char) (s : Str) (h : sep ∉ s) :
    splitOnChar sep s = [s] := by
  induction s with
  | nil => rfl
  | cons c cs ih =>
    have hc : c ≠ sep := fun hc => h (hc ▸ List.mem_cons_self c cs)
    have hcs : sep ∉ cs := fun hm => h (List.mem_cons_of_mem c hm)
    simp only [splitOnChar, if_neg hc, ih hcs]

/-- Prepend a string onto the first piece of a split result. -/
def consHead (x : Str) : List Str → List Str
  | [] => [x]
  | y :: ys => (x ++ y) :: ys

/-- The last piece of a split result (the incomplete-line remainder). -/
def lastPiece : List Str → Str
  | [] => []
  | [x] => x
  | _ :: y :: t => lastPiece (y :: t)

theorem lastPiece_cons₂ (x y : Str) (t : List Str) :
    lastPiece (x :: y :: t) = lastPiece (y :: t) := rfl

theorem consHead_ne_nil (x : Str) (l : List Str) : consHead x l ≠ [] := by
  cases l <;> simp [consHead]

theorem splitOnChar_append (sep : Char) (a b : Str) :
    splitOnChar sep (a ++ b) =
      (splitOnChar sep a).dropLast ++
        consHead (lastPiece (splitOnChar sep a)) (splitOnChar sep b) := by
  induction a with
  | nil =>
    simp only [List.nil_append, splitOnChar, List.dropLast, lastPiece]
    cases h : splitOnChar sep b with
    | nil => exact absurd h (splitOnChar_ne_nil sep b)
    | cons l ls => simp [consHead]
  | cons c cs ih =>
    by_cases h : c = sep
    · subst h
      have hstep : splitOnChar c (c :: (cs ++ b)) = [] :: splitOnChar c (cs ++ b) := by
        simp [splitOnChar]
      have hstep2 : splitOnChar c (c :: cs) = [] :: splitOnChar c cs := by
        simp [splitOnChar]
      rw [List.cons_append, hstep, ih, hstep2]
      cases hs : splitOnChar c cs with
      | nil => exact absurd hs (splitOnChar_ne_nil c cs)
      | cons l ls => rfl
    · cases hs : splitOnChar sep cs with
      | nil => exact absurd hs (splitOnChar_ne_nil sep cs)
      | cons l ls =>
        have hstep2 : splitOnChar sep (c :: cs) = (c :: l) :: ls := by
          simp only [splitOnChar, if_neg h, hs]
        have hstep : splitOnChar sep (c :: (cs ++ b)) =
            consHead [c] (splitOnChar sep (cs ++ b)) := by
          simp only [splitOnChar, if_neg h]
          cases hr : splitOnChar sep (cs ++ b) with
          | nil => exact absurd hr (splitOnChar_ne_nil sep (cs ++ b))
          | cons r rs => simp [consHead]
        rw [List.cons_append, hstep, ih, hs, hstep2]
        cases ls with
        | nil =>
          cases hb : splitOnChar sep b with
          | nil => exact absurd hb (splitOnChar_ne_nil sep b)
          | cons m ms => rfl
        | cons l2 ls2 => rfl

/-! ### The SSE client loop — `api.sendMessageStream` (frontend `api.js`)

The server's byte stream arrives in chunks.  The JS loop keeps an
incomplete-line buffer: `buffer += chunk; lines = buffer.split('\n');
buffer = lines.pop();` and for every remaining line, skips it if blank,
parses `line.slice(6)` when the line starts with `"data: "`, and calls
`onEvent` on parse success.  After `done` the leftover buffer is discarded.
The JSON parser is abstracted as an oracle `p : Str → Option ε`. -/

/-- The `"data: "` line marker of the SSE protocol. -/
def dataMarker : Str := toL "data: "

/-- JS `String.prototype.trim`-style whitespace test. -/
def isJsSpace (c : Char) : Bool :=
  c = ' ' || c = '\t' || c = '\n' || c = '\r' || c = '\x0b' || c = '\x0c'

/-- JS `s.trim()`: strip whitespace from both ends. -/
def jsTrim (s : Str) : Str :=
  ((s.dropWhile (fun c => isJsSpace c)).reverse.dropWhile (fun c => isJsSpace c)).reverse

/-- What one complete line contributes: `continue` on blank lines; on a
`"data: "` line, apply the JSON-parse oracle to `line.slice(6)`; otherwise
nothing. Parse failure produces no event (the `catch` only logs). -/
def lineEvent (p : Str → Option ε) (line : Str) : Option ε :=
  if jsTrim line = [] then none
  else if dataMarker.isPrefixOf line then p (line.drop 6)
  else none

/-- One iteration of the reader loop on a freshly arrived chunk: split the
extended buffer, keep the last (possibly incomplete) line as the new buffer,
emit the events of the complete lines in order. -/
def streamStep (p : Str → Option ε) (buffer chunk : Str) : Str × List ε :=
  let lines := splitOnChar '\n' (buffer ++ chunk)
  (lastPiece lines, lines.dropLast.filterMap (lineEvent p))

/-- The whole client loop of `sendMessageStream`: fold `streamStep` over the
chunk sequence starting from an empty buffer and collect the events delivered
to `onEvent`, in order.  The final buffer is dropped, exactly as in the source
(`if (done) break` without a flush). -/
def runStream (p : Str → Option ε) (chunks : List Str) : List ε :=
  (chunks.foldl
    (fun (st : Str × List ε) chunk =>
      let r := streamStep p st.1 chunk
      (r.1, st.2 ++ r.2)) ([], [])).2

/-- One-shot reading of the same byte stream: the events of every
newline-terminated line of the full text, in order.  (`dropLast` removes the
final piece of the split, which no `'\n'` terminates.) -/
def sseEvents (p : Str → Option ε) (text : Str) : List ε :=
  ((splitOnChar '\n' text).dropLast).filterMap (lineEvent p)

theorem lastPiece_no_sep (sep : Char) (s : Str) :
    sep ∉ lastPiece (splitOnChar sep s) := by
  have h := splitOnChar_no_sep sep s
  have hmem : lastPiece (splitOnChar sep s) ∈ splitOnChar sep s := by
    generalize hq : splitOnChar sep s = q
    cases q with
    | nil => exact absurd hq (splitOnChar_ne_nil sep s)
    | cons x xs =>
      clear hq
      induction xs generalizing x with
      | nil => simp [lastPiece]
      | cons y ys ih =>
        rw [lastPiece_cons₂]
        exact List.mem_cons_of_mem x (ih y)
  exact h _ hmem

/-- Splitting an already separator-free last piece re-glued onto more text. -/
theorem splitOnChar_lastPiece_append (sep : Char) (s b : Str) :
    splitOnChar sep (lastPiece (splitOnChar sep s) ++ b) =
      consHead (lastPiece (splitOnChar sep s)) (splitOnChar sep b) := by
  rw [splitOnChar_append]
  rw [splitOnChar_of_no_sep sep _ (lastPiece_no_sep sep s)]
  rfl

theorem dropLast_append_of_ne_nil (xs : List α) {ys : List α} (h : ys ≠ []) :
    (xs ++ ys).dropLast = xs ++ ys.dropLast := by
  induction xs with
  | nil => rfl
  | cons x t ih =>
    have hne : t ++ ys ≠ [] := by
      intro hcon
      rcases List.append_eq_nil.mp hcon with ⟨-, h2⟩
      exact h h2
    cases hq : t ++ ys with
    | nil => exact absurd hq hne
    | cons q qs =>
      rw [List.cons_append, hq, List.dropLast_cons_of_ne_nil (hq ▸ hne), ← hq, ih,
        List.cons_append]

theorem lastPiece_append_of_ne_nil (xs : List Str) {ys : List Str} (h : ys ≠ []) :
    lastPiece (xs ++ ys) = lastPiece ys := by
  induction xs with
  | nil => rfl
  | cons x t ih =>
    cases hq : t ++ ys with
    | nil =>
      rcases List.append_eq_nil.mp hq with ⟨-, h2⟩
      exact absurd h2 h
    | cons q qs =>
      rw [List.cons_append, hq, lastPiece_cons₂, ← hq, ih]

theorem consHead_dropLast (x : Str) (l : List Str) (h : l ≠ []) :
    (consHead x l).dropLast = match l with
      | [] => []
      | y :: ys => ((x ++ y) :: ys).dropLast := by
  cases l with
  | nil => exact absurd rfl h
  | cons y ys => rfl

/-- Decomposition of the one-shot events of `a ++ b` at a point where `a` has
been fully consumed: the events of `a`'s complete lines, then the events of the
rest with `a`'s leftover glued on. -/
theorem sseEvents_append (p : Str → Option ε) (a b : Str) :
    sseEvents p (a ++ b) =
      sseEvents p a ++ sseEvents p (lastPiece (splitOnChar '\n' a) ++ b) := by
  unfold sseEvents
  rw [splitOnChar_append, splitOnChar_lastPiece_append]
  rw [dropLast_append_of_ne_nil _ (consHead_ne_nil _ _)]
  rw [List.filterMap_append]

/-- The leftover buffer after consuming `a ++ b` equals the leftover after
consuming `b` glued behind `a`'s leftover. -/
theorem lastPiece_split_append (sep : Char) (a b : Str) :
    lastPiece (splitOnChar sep (a ++ b)) =
      lastPiece (splitOnChar sep (lastPiece (splitOnChar sep a) ++ b)) := by
  rw [splitOnChar_append, splitOnChar_lastPiece_append,
    lastPiece_append_of_ne_nil _ (consHead_ne_nil _ _)]

theorem runStream_foldl_inv (p : Str → Option ε) (chunks : List Str) :
    ∀ buf acc, '\n' ∉ buf →
      (chunks.foldl
        (fun (st : Str × List ε) chunk =>
          let r := streamStep p st.1 chunk
          (r.1, st.2 ++ r.2)) (buf, acc)).2 =
        acc ++ sseEvents p (buf ++ chunks.flatten) := by
  induction chunks with
  | nil =>
    intro buf acc hbuf
    simp only [List.foldl_nil, List.flatten_nil, List.append_nil]
    have : sseEvents p buf = [] := by
      simp only [sseEvents, splitOnChar_of_no_sep '\n' buf hbuf, List.dropLast_single,
        List.filterMap_nil]
    rw [this, List.append_nil]
  | cons ch rest ih =>
    intro buf acc hbuf
    simp only [List.foldl_cons]
    have hstep : streamStep p buf ch =
        (lastPiece (splitOnChar '\n' (buf ++ ch)), sseEvents p (buf ++ ch)) := rfl
    rw [hstep]
    have hnl : '\n' ∉ lastPiece (splitOnChar '\n' (buf ++ ch)) :=
      lastPiece_no_sep '\n' (buf ++ ch)
    rw [ih _ _ hnl]
    have hj : (ch :: rest).flatten = ch ++ rest.flatten := rfl
    rw [hj, List.append_assoc, ← List.append_assoc buf ch rest.flatten]
    rw [sseEvents_append p (buf ++ ch) rest.flatten]

/-- Buffering correctness of the SSE reader: however the byte stream is cut
into chunks, the loop of `sendMessageStream` delivers exactly the events of the
one-shot reading of the whole stream, in order. -/
theorem runStream_eq_sseEvents (p : Str → Option ε) (chunks : List Str) :
    runStream p chunks = sseEvents p chunks.flatten := by
  have h := runStream_foldl_inv p chunks [] [] (by simp)
  simpa [runStream] using h

/-! ### Pipeline data model (spec §3)

`Stage1Result`, `Stage2Result`, `AggregateEntry`, `FinalResult` as described
by the data model.  The backend that produces them is not part of the sources;
the structures carry exactly the fields the spec names.  `AggregateEntry`
stores the vote tally as the 1-indexed position sum plus the vote count, so
that its average rank `sumPos / votesCounted` is exactly the spec's
`averageRank` for a scored member while every comparison stays decidable. -/

structure Stage1Result where
  member : Str
  answerText : Option Str
  errMsg : Option Str
deriving DecidableEq

structure Stage2Result where
  member : Str
  rawRankingText : Str
  parsedRanking : List Str
  errMsg : Option Str
deriving DecidableEq

structure AggregateEntry where
  member : Str
  label : Str
  sumPos : ℕ
  votesCounted : ℕ
  rosterIdx : ℕ
deriving DecidableEq

structure FinalResult where
  model : Str
  response : Str
deriving DecidableEq

/-- The average rank of a scored entry, the spec's `averageRank` float. -/
def avgOf (e : AggregateEntry) : ℚ := (e.sumPos : ℚ) / (e.votesCounted : ℚ)

/-- Strictly better consensus rank: a scored member beats an unscored one, and
between scored members the smaller mean position wins (compared by
cross-multiplication, which avoids rational division). -/
def meanLt (a b : AggregateEntry) : Prop :=
  (0 < a.votesCounted ∧ b.votesCounted = 0) ∨
    (0 < a.votesCounted ∧ 0 < b.votesCounted ∧
      a.sumPos * b.votesCounted < b.sumPos * a.votesCounted)

/-- Equal consensus rank: both unscored, or equal mean positions. -/
def meanEqv (a b : AggregateEntry) : Prop :=
  (a.votesCounted = 0 ∧ b.votesCounted = 0) ∨
    (0 < a.votesCounted ∧ 0 < b.votesCounted ∧
      a.sumPos * b.votesCounted = b.sumPos * a.votesCounted)

/-- Modelled from the spec: the Aggregator's sort order — ascending by
averageRank with unscored members last, ties broken by higher votesCounted,
then by original roster order. -/
def entryLe (a b : AggregateEntry) : Prop :=
  meanLt a b ∨ (meanEqv a b ∧
    (b.votesCounted < a.votesCounted ∨
      (a.votesCounted = b.votesCounted ∧ a.rosterIdx ≤ b.rosterIdx)))

instance : DecidableRel meanLt := fun a b => by unfold meanLt; infer_instance

instance : DecidableRel meanEqv := fun a b => by unfold meanEqv; infer_instance

instance : DecidableRel entryLe := fun a b => by unfold entryLe; infer_instance

theorem crossmul_pos_left {s1 v1 s2 v2 : ℕ} (h : s1 * v2 < s2 * v1) : 0 < v1 := by
  rcases Nat.eq_zero_or_pos v1 with h1 | h1
  · rw [h1, Nat.mul_zero] at h
    exact absurd h (Nat.not_lt_zero _)
  · exact h1

theorem crossmul_lt_trans {s1 v1 s2 v2 s3 v3 : ℕ} (hv2 : 0 < v2) (hv3 : 0 < v3)
    (h12 : s1 * v2 < s2 * v1) (h23 : s2 * v3 < s3 * v2) : s1 * v3 < s3 * v1 := by
  have hv1 : 0 < v1 := crossmul_pos_left h12
  have A : s1 * v2 * v3 < s2 * v1 * v3 := by
    exact Nat.mul_lt_mul_of_lt_of_le h12 (le_refl v3) hv3
  have B : s2 * v3 * v1 < s3 * v2 * v1 := by
    exact Nat.mul_lt_mul_of_lt_of_le h23 (le_refl v1) hv1
  have e1 : s1 * v2 * v3 = s1 * v3 * v2 := by ring
  have e2 : s2 * v1 * v3 = s2 * v3 * v1 := by ring
  have e3 : s3 * v2 * v1 = s3 * v1 * v2 := by ring
  have C : s1 * v3 * v2 < s3 * v1 * v2 := by
    calc s1 * v3 * v2 = s1 * v2 * v3 := e1.symm
      _ < s2 * v1 * v3 := A
      _ = s2 * v3 * v1 := e2
      _ < s3 * v2 * v1 := B
      _ = s3 * v1 * v2 := e3
  exact Nat.lt_of_mul_lt_mul_right C

theorem crossmul_eq_trans {s1 v1 s2 v2 s3 v3 : ℕ} (hv2 : 0 < v2)
    (h12 : s1 * v2 = s2 * v1) (h23 : s2 * v3 = s3 * v2) : s1 * v3 = s3 * v1 := by
  have C : s1 * v3 * v2 = s3 * v1 * v2 := by
    calc s1 * v3 * v2 = s1 * v2 * v3 := by ring
      _ = s2 * v1 * v3 := by rw [h12]
      _ = s2 * v3 * v1 := by ring
      _ = s3 * v2 * v1 := by rw [h23]
      _ = s3 * v1 * v2 := by ring
  exact Nat.eq_of_mul_eq_mul_right hv2 C

theorem crossmul_lt_of_lt_of_eq {s1 v1 s2 v2 s3 v3 : ℕ} (hv2 : 0 < v2) (hv3 : 0 < v3)
    (h12 : s1 * v2 < s2 * v1) (h23 : s2 * v3 = s3 * v2) : s1 * v3 < s3 * v1 := by
  have hv1 : 0 < v1 := crossmul_pos_left h12
  have C : s1 * v3 * v2 < s3 * v1 * v2 := by
    calc s1 * v3 * v2 = s1 * v2 * v3 := by ring
      _ < s2 * v1 * v3 := Nat.mul_lt_mul_of_lt_of_le h12 (le_refl v3) hv3
      _ = s2 * v3 * v1 := by ring
      _ = s3 * v2 * v1 := by rw [h23]
      _ = s3 * v1 * v2 := by ring
  exact Nat.lt_of_mul_lt_mul_right C

theorem crossmul_lt_of_eq_of_lt {s1 v1 s2 v2 s3 v3 : ℕ} (hv1 : 0 < v1) (hv2 : 0 < v2)
    (h12 : s1 * v2 = s2 * v1) (h23 : s2 * v3 < s3 * v2) : s1 * v3 < s3 * v1 := by
  have C : s1 * v3 * v2 < s3 * v1 * v2 := by
    calc s1 * v3 * v2 = s1 * v2 * v3 := by ring
      _ = s2 * v1 * v3 := by rw [h12]
      _ = s2 * v3 * v1 := by ring
      _ < s3 * v2 * v1 := Nat.mul_lt_mul_of_lt_of_le h23 (le_refl v1) hv1
      _ = s3 * v1 * v2 := by ring
  exact Nat.lt_of_mul_lt_mul_right C

theorem meanLt_trans {a b c : AggregateEntry} (h1 : meanLt a b) (h2 : meanLt b c) :
    meanLt a c := by
  rcases h1 with ⟨ha, hb0⟩ | ⟨ha, hb, hab⟩
  · rcases h2 with ⟨hb, -⟩ | ⟨hb, -, -⟩
    · omega
    · omega
  · rcases h2 with ⟨-, hc0⟩ | ⟨-, hc, hbc⟩
    · exact Or.inl ⟨ha, hc0⟩
    · exact Or.inr ⟨ha, hc, crossmul_lt_trans hb hc hab hbc⟩

theorem meanLt_of_lt_of_eqv {a b c : AggregateEntry} (h1 : meanLt a b) (h2 : meanEqv b c) :
    meanLt a c := by
  rcases h1 with ⟨ha, hb0⟩ | ⟨ha, hb, hab⟩
  · rcases h2 with ⟨-, hc0⟩ | ⟨hb, -, -⟩
    · exact Or.inl ⟨ha, hc0⟩
    · omega
  · rcases h2 with ⟨hb0, -⟩ | ⟨-, hc, hbc⟩
    · omega
    · exact Or.inr ⟨ha, hc, crossmul_lt_of_lt_of_eq hb hc hab hbc⟩

theorem meanLt_of_eqv_of_lt {a b c : AggregateEntry} (h1 : meanEqv a b) (h2 : meanLt b c) :
    meanLt a c := by
  rcases h1 with ⟨ha0, hb0⟩ | ⟨ha, hb, hab⟩
  · rcases h2 with ⟨hb, -⟩ | ⟨hb, -, -⟩ <;> omega
  · rcases h2 with ⟨-, hc0⟩ | ⟨-, hc, hbc⟩
    · exact Or.inl ⟨ha, hc0⟩
    · exact Or.inr ⟨ha, hc, crossmul_lt_of_eq_of_lt ha hb hab hbc⟩

theorem meanEqv_trans {a b c : AggregateEntry} (h1 : meanEqv a b) (h2 : meanEqv b c) :
    meanEqv a c := by
  rcases h1 with ⟨ha0, hb0⟩ | ⟨ha, hb, hab⟩
  · rcases h2 with ⟨-, hc0⟩ | ⟨hb, -, -⟩
    · exact Or.inl ⟨ha0, hc0⟩
    · omega
  · rcases h2 with ⟨hb0, -⟩ | ⟨-, hc, hbc⟩
    · omega
    · exact Or.inr ⟨ha, hc, crossmul_eq_trans hb hab hbc⟩

theorem meanLt_or_eqv_total (a b : AggregateEntry) :
    meanLt a b ∨ meanEqv a b ∨ meanLt b a := by
  rcases Nat.eq_zero_or_pos a.votesCounted with ha | ha
  · rcases Nat.eq_zero_or_pos b.votesCounted with hb | hb
    · exact Or.inr (Or.inl (Or.inl ⟨ha, hb⟩))
    · exact Or.inr (Or.inr (Or.inl ⟨hb, ha⟩))
  · rcases Nat.eq_zero_or_pos b.votesCounted with hb | hb
    · exact Or.inl (Or.inl ⟨ha, hb⟩)
    · rcases Nat.lt_trichotomy (a.sumPos * b.votesCounted) (b.sumPos * a.votesCounted)
        with h | h | h
      · exact Or.inl (Or.inr ⟨ha, hb, h⟩)
      · exact Or.inr (Or.inl (Or.inr ⟨ha, hb, h⟩))
      · exact Or.inr (Or.inr (Or.inr ⟨hb, ha, h⟩))

theorem meanEqv_symm {a b : AggregateEntry} (h : meanEqv a b) : meanEqv b a := by
  rcases h with ⟨ha, hb⟩ | ⟨ha, hb, hab⟩
  · exact Or.inl ⟨hb, ha⟩
  · exact Or.inr ⟨hb, ha, hab.symm⟩

theorem not_meanLt_of_eqv {a b : AggregateEntry} (h : meanEqv a b) : ¬ meanLt a b := by
  rcases h with ⟨ha0, hb0⟩ | ⟨ha, hb, hab⟩ <;>
    rintro (⟨ha', hb'⟩ | ⟨ha', hb', hab'⟩) <;> omega

theorem entryLe_total : ∀ a b : AggregateEntry, entryLe a b ∨ entryLe b a := by
  intro a b
  rcases meanLt_or_eqv_total a b with h | h | h
  · exact Or.inl (Or.inl h)
  · rcases Nat.lt_trichotomy a.votesCounted b.votesCounted with hv | hv | hv
    · exact Or.inr (Or.inr ⟨meanEqv_symm h, Or.inl hv⟩)
    · rcases Nat.le_total a.rosterIdx b.rosterIdx with hi | hi
      · exact Or.inl (Or.inr ⟨h, Or.inr ⟨hv, hi⟩⟩)
      · exact Or.inr (Or.inr ⟨meanEqv_symm h, Or.inr ⟨hv.symm, hi⟩⟩)
    · exact Or.inl (Or.inr ⟨h, Or.inl hv⟩)
  · exact Or.inr (Or.inl h)

theorem entryLe_trans : ∀ a b c : AggregateEntry,
    entryLe a b → entryLe b c → entryLe a c := by
  intro a b c h1 h2
  rcases h1 with h1 | ⟨h1e, h1t⟩
  · rcases h2 with h2 | ⟨h2e, -⟩
    · exact Or.inl (meanLt_trans h1 h2)
    · exact Or.inl (meanLt_of_lt_of_eqv h1 h2e)
  · rcases h2 with h2 | ⟨h2e, h2t⟩
    · exact Or.inl (meanLt_of_eqv_of_lt h1e h2)
    · exact Or.inr ⟨meanEqv_trans h1e h2e, by omega⟩

instance : IsTotal AggregateEntry entryLe := ⟨entryLe_total⟩

instance : IsTrans AggregateEntry entryLe := ⟨entryLe_trans⟩

/-! ### Aggregator (spec §4.3)

Modelled from the spec: the backend Aggregator is not part of the sources;
only its contract is specified.  For each label, collect its 1-indexed
position from every `Stage2Result` whose `parsedRanking` contains it;
`averageRank` is the arithmetic mean of those positions and `votesCounted`
their number; entries are sorted ascending by `averageRank` with unscored
members last, ties broken by higher `votesCounted`, then roster order. -/

/-- 1-indexed position of the first occurrence of `lab` in a ranking list. -/
def posIn (lab : Str) : List Str → ℕ
  | [] => 0
  | x :: xs => if x = lab then 1 else posIn lab xs + 1

theorem posIn_le_length (lab : Str) (l : List Str) (h : lab ∈ l) :
    posIn lab l ≤ l.length := by
  induction l with
  | nil => simp at h
  | cons x xs ih =>
    simp only [posIn, List.length_cons]
    by_cases hx : x = lab
    · simp [hx]
    · rcases List.mem_cons.mp h with h | h
      · exact absurd h.symm hx
      · simpa [hx] using ih h

/-- Modelled from the spec: the positions a label receives, one per
`Stage2Result` whose `parsedRanking` contains it, in result order. -/
def positionsOf (results : List Stage2Result) (lab : Str) : List ℕ :=
  results.filterMap (fun r =>
    if lab ∈ r.parsedRanking then some (posIn lab r.parsedRanking) else none)

/-- Modelled from the spec: `votesCounted` — the number of contributing results. -/
def votesFor (results : List Stage2Result) (lab : Str) : ℕ :=
  (positionsOf results lab).length

/-- Modelled from the spec: the unsorted `AggregateEntry` list, one entry per
labeled member, in roster order starting at index `i`. -/
def rawEntriesFrom (i : ℕ) (results : List Stage2Result) :
    List (Str × Str) → List AggregateEntry
  | [] => []
  | (m, lab) :: t =>
    { member := m, label := lab, sumPos := (positionsOf results lab).sum,
      votesCounted := votesFor results lab, rosterIdx := i } ::
      rawEntriesFrom (i + 1) results t

/-- Modelled from the spec: `aggregate(results, labeled members)` — the sorted
consensus ordering. -/
def aggregate (labeled : List (Str × Str)) (results : List Stage2Result) :
    List AggregateEntry :=
  List.insertionSort entryLe (rawEntriesFrom 0 results labeled)

/-- The arithmetic mean of the label's 1-indexed positions, as a rational. -/
def meanPositions (results : List Stage2Result) (lab : Str) : ℚ :=
  ((positionsOf results lab).sum : ℚ) / ((positionsOf results lab).length : ℚ)

theorem rawEntriesFrom_mem (i : ℕ) (results : List Stage2Result)
    (labeled : List (Str × Str)) :
    ∀ e ∈ rawEntriesFrom i results labeled,
      (e.member, e.label) ∈ labeled ∧
      e.sumPos = (positionsOf results e.label).sum ∧
      e.votesCounted = votesFor results e.label := by
  induction labeled generalizing i with
  | nil => intro e he; simp [rawEntriesFrom] at he
  | cons hd t ih =>
    intro e he
    obtain ⟨m, lab⟩ := hd
    rcases List.mem_cons.mp he with he | he
    · subst he
      exact ⟨List.mem_cons_self _ _, rfl, rfl⟩
    · obtain ⟨h1, h2, h3⟩ := ih (i + 1) e he
      exact ⟨List.mem_cons_of_mem _ h1, h2, h3⟩

theorem rawEntriesFrom_map_pair (i : ℕ) (results : List Stage2Result)
    (labeled : List (Str × Str)) :
    (rawEntriesFrom i results labeled).map (fun e => (e.member, e.label)) = labeled := by
  induction labeled generalizing i with
  | nil => rfl
  | cons hd t ih =>
    obtain ⟨m, lab⟩ := hd
    simp only [rawEntriesFrom, List.map_cons, ih]

theorem aggregate_perm (labeled : List (Str × Str)) (results : List Stage2Result) :
    (aggregate labeled results).Perm (rawEntriesFrom 0 results labeled) :=
  List.perm_insertionSort entryLe _

theorem aggregate_sorted (labeled : List (Str × Str)) (results : List Stage2Result) :
    List.Sorted entryLe (aggregate labeled results) :=
  List.sorted_insertionSort entryLe _

theorem aggregate_mem (labeled : List (Str × Str)) (results : List Stage2Result) :
    ∀ e ∈ aggregate labeled results,
      (e.member, e.label) ∈ labeled ∧
      e.sumPos = (positionsOf results e.label).sum ∧
      e.votesCounted = votesFor results e.label := by
  intro e he
  exact rawEntriesFrom_mem 0 results labeled e
    ((aggregate_perm labeled results).mem_iff.mp he)

theorem aggregate_map_perm (labeled : List (Str × Str)) (results : List Stage2Result) :
    ((aggregate labeled results).map (fun e => (e.member, e.label))).Perm labeled := by
  have h1 := (aggregate_perm labeled results).map (fun e => (e.member, e.label))
  rw [rawEntriesFrom_map_pair] at h1
  exact h1

/-! ### Frontend conversation state — `App.jsx` `handleSendMessage`

The conversation object holds a message list plus other fields (id, title,
…), abstracted as a `rest` component of arbitrary type.  Each streaming-event
case of the `switch` mutates only the last message of the shallow-copied
message array and returns `{ ...prev, messages }`. -/

structure Loading where
  stage1 : Bool
  stage2 : Bool
  stage3 : Bool
deriving DecidableEq

structure MsgMetadata where
  label_to_model : Option (List (Str × Str))
  aggregate_rankings : Option (List AggregateEntry)
deriving DecidableEq

inductive Role where
  | user
  | assistant
deriving DecidableEq

structure Message where
  role : Role
  content : Option Str
  files : List (Str × Str)
  stage1 : Option (List Stage1Result)
  stage2 : Option (List Stage2Result)
  stage3 : Option FinalResult
  metadata : Option MsgMetadata
  loading : Option Loading
deriving DecidableEq

structure Conversation (ρ : Type) where
  messages : List Message
  rest : ρ

/-- `setCurrentConversation(prev => { const messages = [...prev.messages];
const lastMsg = messages[messages.length-1]; …mutate lastMsg…;
return { ...prev, messages }; })`. -/
def mapLastMessage (f : Message → Message) (c : Conversation ρ) : Conversation ρ :=
  { c with messages := updateLast f c.messages }

def emptyLoading : Loading := ⟨false, false, false⟩

def setLoading1 (b : Bool) (m : Message) : Message :=
  { m with loading := some { m.loading.getD emptyLoading with stage1 := b } }

def setLoading2 (b : Bool) (m : Message) : Message :=
  { m with loading := some { m.loading.getD emptyLoading with stage2 := b } }

def setLoading3 (b : Bool) (m : Message) : Message :=
  { m with loading := some { m.loading.getD emptyLoading with stage3 := b } }

/-- `lastMsg.metadata = { ...lastMsg.metadata, aggregate_rankings: event.aggregate }`. -/
def mdSetAggregate (agg : List AggregateEntry) (md : Option MsgMetadata) : MsgMetadata :=
  { md.getD ⟨none, none⟩ with aggregate_rankings := some agg }

def onStage1Start : Conversation ρ → Conversation ρ :=
  mapLastMessage (setLoading1 true)

def onStage1Complete (results : List Stage1Result) : Conversation ρ → Conversation ρ :=
  mapLastMessage (fun m => setLoading1 false { m with stage1 := some results })

def onStage2Start : Conversation ρ → Conversation ρ :=
  mapLastMessage (setLoading2 true)

def onStage2Complete (results : List Stage2Result) (agg : List AggregateEntry) :
    Conversation ρ → Conversation ρ :=
  mapLastMessage (fun m =>
    setLoading2 false
      { m with stage2 := some results, metadata := some (mdSetAggregate agg m.metadata) })

def onStage3Start : Conversation ρ → Conversation ρ :=
  mapLastMessage (setLoading3 true)

def onStage3Complete (result : FinalResult) : Conversation ρ → Conversation ρ :=
  mapLastMessage (fun m => setLoading3 false { m with stage3 := some result })

/-- The event union the `switch` in `handleSendMessage` dispatches on;
`other` stands for any unknown `event.type` (the `default` case). -/
inductive FrontEvent where
  | stage1Start
  | stage1Complete (results : List Stage1Result)
  | stage2Start
  | stage2Complete (results : List Stage2Result) (agg : List AggregateEntry)
  | stage3Start (chairman : Str)
  | stage3Complete (result : FinalResult)
  | titleComplete
  | complete
  | errorEv (msg : Str)
  | other (t : Str)

structure AppState (ρ : Type) where
  conv : Conversation ρ
  isLoading : Bool

/-- One iteration of the `onEvent` callback of `handleSendMessage`.
`title_complete` and `complete` reload the sidebar conversation list, which is
outside this state; `complete` and `error` clear the loading flag. -/
def applyEvent (st : AppState ρ) : FrontEvent → AppState ρ
  | .stage1Start => { st with conv := onStage1Start st.conv }
  | .stage1Complete results => { st with conv := onStage1Complete results st.conv }
  | .stage2Start => { st with conv := onStage2Start st.conv }
  | .stage2Complete results agg => { st with conv := onStage2Complete results agg st.conv }
  | .stage3Start _ => { st with conv := onStage3Start st.conv }
  | .stage3Complete result => { st with conv := onStage3Complete result st.conv }
  | .titleComplete => st
  | .complete => { st with isLoading := false }
  | .errorEv _ => { st with isLoading := false }
  | .other _ => st

/-- The optimistic user message `{ role: 'user', content, files: … }`. -/
def mkUserMessage (content : Str) (files : List (Str × Str)) : Message :=
  { role := .user, content := some content, files := files, stage1 := none,
    stage2 := none, stage3 := none, metadata := none, loading := none }

/-- The placeholder assistant message appended before streaming starts. -/
def mkAssistantMessage : Message :=
  { role := .assistant, content := none, files := [], stage1 := none,
    stage2 := none, stage3 := none, metadata := none,
    loading := some emptyLoading }

/-- `handleSendMessage` when `sendMessageStream` ultimately throws: set the
loading flag, append the user message, append the assistant placeholder,
process whatever events arrived before the failure, then run the `catch`
block — `messages.slice(0, -2)` and `setIsLoading(false)`. -/
def handleSendFailure (st : AppState ρ) (content : Str) (files : List (Str × Str))
    (evts : List FrontEvent) : AppState ρ :=
  let st1 : AppState ρ := { st with isLoading := true }
  let st2 : AppState ρ :=
    { st1 with conv := { st1.conv with
        messages := st1.conv.messages ++ [mkUserMessage content files] } }
  let st3 : AppState ρ :=
    { st2 with conv := { st2.conv with
        messages := st2.conv.messages ++ [mkAssistantMessage] } }
  let st4 : AppState ρ := evts.foldl applyEvent st3
  { st4 with
    conv := { st4.conv with messages := st4.conv.messages.dropLast.dropLast },
    isLoading := false }

/-- Frame of a conversation update: every message except the last, and every
non-message field, is unchanged. -/
def framePreserved (c' c : Conversation ρ) : Prop :=
  c'.messages.dropLast = c.messages.dropLast ∧
  c'.messages.length = c.messages.length ∧
  c'.rest = c.rest

theorem mapLastMessage_frame (f : Message → Message) (c : Conversation ρ) :
    framePreserved (mapLastMessage f c) c :=
  ⟨updateLast_dropLast f c.messages, updateLast_length f c.messages, rfl⟩

theorem applyEvent_frame (ev : FrontEvent) (st : AppState ρ) (base : List Message)
    (u a : Message) (h : st.conv.messages = base ++ [u, a]) :
    ∃ a', (applyEvent st ev).conv.messages = base ++ [u, a'] ∧
      (applyEvent st ev).conv.rest = st.conv.rest := by
  cases ev with
  | stage1Start =>
    exact ⟨setLoading1 true a,
      by simp [applyEvent, onStage1Start, mapLastMessage, h, updateLast_append_two], rfl⟩
  | stage1Complete results =>
    exact ⟨setLoading1 false { a with stage1 := some results },
      by simp [applyEvent, onStage1Complete, mapLastMessage, h, updateLast_append_two], rfl⟩
  | stage2Start =>
    exact ⟨setLoading2 true a,
      by simp [applyEvent, onStage2Start, mapLastMessage, h, updateLast_append_two], rfl⟩
  | stage2Complete results agg =>
    exact ⟨setLoading2 false
        { a with stage2 := some results, metadata := some (mdSetAggregate agg a.metadata) },
      by simp [applyEvent, onStage2Complete, mapLastMessage, h, updateLast_append_two], rfl⟩
  | stage3Start ch =>
    exact ⟨setLoading3 true a,
      by simp [applyEvent, onStage3Start, mapLastMessage, h, updateLast_append_two], rfl⟩
  | stage3Complete result =>
    exact ⟨setLoading3 false { a with stage3 := some result },
      by simp [applyEvent, onStage3Complete, mapLastMessage, h, updateLast_append_two], rfl⟩
  | titleComplete => exact ⟨a, h, rfl⟩
  | complete => exact ⟨a, h, rfl⟩
  | errorEv msg => exact ⟨a, h, rfl⟩
  | other t => exact ⟨a, h, rfl⟩

theorem foldl_applyEvent_frame (evts : List FrontEvent) :
    ∀ (st : AppState ρ) (base : List Message) (u a : Message),
      st.conv.messages = base ++ [u, a] →
      ∃ a', (evts.foldl applyEvent st).conv.messages = base ++ [u, a'] ∧
        (evts.foldl applyEvent st).conv.rest = st.conv.rest := by
  induction evts with
  | nil =>
    intro st base u a h
    exact ⟨a, h, rfl⟩
  | cons ev evrest ih =>
    intro st base u a h
    obtain ⟨a1, h1, h2⟩ := applyEvent_frame ev st base u a h
    obtain ⟨a2, h3, h4⟩ := ih (applyEvent st ev) base u a1 h1
    exact ⟨a2, h3, h4.trans h2⟩

/-! ### Substring search — shared by `deAnonymizeText` (Stage2.jsx) and the
ranking-parser model.  `splitAtSub pat s` is JS `s.indexOf(pat)` in split
form: `some (before, rest)` at the first occurrence (`rest` starts with
`pat`), `none` when `pat` does not occur. -/

def splitAtSub (pat : Str) : Str → Option (Str × Str)
  | [] => if pat.isPrefixOf ([] : Str) then some ([], []) else none
  | c :: cs =>
    if pat.isPrefixOf (c :: cs) then some ([], c :: cs)
    else (splitAtSub pat cs).map (fun pr => (c :: pr.1, pr.2))

/-- JS `s.indexOf(pat) !== -1`. -/
def hasSub (pat s : Str) : Bool := (splitAtSub pat s).isSome

theorem isPrefixOf_intro (p t : Str) : p.isPrefixOf (p ++ t) = true := by
  rw [List.isPrefixOf_iff_prefix]
  exact ⟨t, rfl⟩

theorem isPrefixOf_dest {p s : Str} (h : p.isPrefixOf s = true) : ∃ t, s = p ++ t := by
  rw [List.isPrefixOf_iff_prefix] at h
  obtain ⟨t, ht⟩ := h
  exact ⟨t, ht.symm⟩

theorem hasSub_cons (pat : Str) (c : Char) (cs : Str) :
    hasSub pat (c :: cs) = (pat.isPrefixOf (c :: cs) || hasSub pat cs) := by
  simp only [hasSub, splitAtSub]
  by_cases h : pat.isPrefixOf (c :: cs)
  · simp [h]
  · simp only [h, if_false, Bool.false_or]
    cases splitAtSub pat cs <;> simp

theorem hasSub_of_isPrefixOf {pat s : Str} (h : pat.isPrefixOf s = true) :
    hasSub pat s = true := by
  cases s with
  | nil => simp [hasSub, splitAtSub, h]
  | cons c cs => simp [hasSub, splitAtSub, h]

theorem splitAtSub_eq_some {pat s pre rest : Str}
    (h : splitAtSub pat s = some (pre, rest)) :
    s = pre ++ rest ∧ pat.isPrefixOf rest = true := by
  induction s generalizing pre with
  | nil =>
    simp only [splitAtSub] at h
    by_cases hp : pat.isPrefixOf ([] : Str)
    · rw [if_pos hp] at h
      obtain ⟨h1, h2⟩ := Prod.mk.injEq .. ▸ Option.some.injEq .. ▸ h
      injection h with h
      injection h with h1 h2
      subst h1; subst h2
      exact ⟨rfl, hp⟩
    · rw [if_neg hp] at h
      exact Option.noConfusion h
  | cons c cs ih =>
    simp only [splitAtSub] at h
    by_cases hp : pat.isPrefixOf (c :: cs)
    · rw [if_pos hp] at h
      injection h with h
      injection h with h1 h2
      subst h1; subst h2
      exact ⟨rfl, hp⟩
    · rw [if_neg hp] at h
      cases hsp : splitAtSub pat cs with
      | none => rw [hsp] at h; exact Option.noConfusion h
      | some pr =>
        rw [hsp] at h
        obtain ⟨p1, r1⟩ := pr
        simp only [Option.map_some', Option.some.injEq] at h
        injection h with h1 h2
        obtain ⟨hs, hr⟩ := @ih p1 (by rw [hsp, h2])
        constructor
        · rw [← h1, List.cons_append, ← hs]
        · exact hr

/-- `splitAtSub` finds the first occurrence: any other split point with the
pattern as a prefix of its remainder is at least as far right. -/
theorem splitAtSub_first {pat s pre rest : Str}
    (h : splitAtSub pat s = some (pre, rest)) :
    ∀ p r, s = p ++ r → pat.isPrefixOf r = true → pre.length ≤ p.length := by
  induction s generalizing pre with
  | nil =>
    intro p r hpr hpat
    simp only [splitAtSub] at h
    by_cases hp : pat.isPrefixOf ([] : Str)
    · rw [if_pos hp] at h
      injection h with h
      injection h with h1 h2
      subst h1
      simp
    · rw [if_neg hp] at h; exact Option.noConfusion h
  | cons c cs ih =>
    intro p r hpr hpat
    simp only [splitAtSub] at h
    by_cases hp : pat.isPrefixOf (c :: cs)
    · rw [if_pos hp] at h
      injection h with h
      injection h with h1 h2
      subst h1
      simp
    · rw [if_neg hp] at h
      cases hsp : splitAtSub pat cs with
      | none => rw [hsp] at h; exact Option.noConfusion h
      | some pr2 =>
        rw [hsp] at h
        obtain ⟨p1, r1⟩ := pr2
        simp only [Option.map_some', Option.some.injEq] at h
        injection h with h1 h2
        cases p with
        | nil =>
          rw [List.nil_append] at hpr
          rw [← hpr] at hpat
          exact absurd hpat hp
        | cons d ds =>
          rw [List.cons_append] at hpr
          injection hpr with hd hds
          have := @ih p1 (by rw [hsp, h2]) ds r hds hpat
          rw [← h1]
          simpa using this

theorem splitAtSub_isNone {pat s : Str} (h : splitAtSub pat s = none) :
    ∀ p r, s = p ++ r → pat.isPrefixOf r = true → False := by
  induction s with
  | nil =>
    intro p r hpr hpat
    simp only [splitAtSub] at h
    by_cases hp : pat.isPrefixOf ([] : Str)
    · rw [if_pos hp] at h; exact Option.noConfusion h
    · rcases List.append_eq_nil.mp hpr.symm with ⟨-, hr⟩
      rw [hr] at hpat
      exact absurd hpat hp
  | cons c cs ih =>
    intro p r hpr hpat
    simp only [splitAtSub] at h
    by_cases hp : pat.isPrefixOf (c :: cs)
    · rw [if_pos hp] at h; exact Option.noConfusion h
    · rw [if_neg hp] at h
      cases hsp : splitAtSub pat cs with
      | some pr2 => rw [hsp] at h; exact Option.noConfusion h
      | none =>
        cases p with
        | nil =>
          rw [List.nil_append] at hpr
          rw [← hpr] at hpat
          exact absurd hpat hp
        | cons d ds =>
          rw [List.cons_append] at hpr
          injection hpr with hd hds
          exact ih hsp ds r hds hpat

/-! ### `deAnonymizeText` and the aggregate display — `Stage2.jsx` -/

/-- The authoritative ranking-section marker. -/
def markerFR : Str := toL "FINAL RANKING:"

theorem splitAtSub_of_isPrefixOf {pat s : Str} (h : pat.isPrefixOf s = true) :
    splitAtSub pat s = some ([], s) := by
  cases s with
  | nil =>
    simp only [splitAtSub, if_pos h]
  | cons c cs =>
    simp only [splitAtSub, if_pos h]

theorem markerFR_no_border : ∀ k, k < markerFR.length → 0 < k →
    markerFR.take k ≠ markerFR.drop (markerFR.length - k) := by decide

theorem markerFR_not_prefix_of_append (a b : Str) (ha : a ≠ [])
    (hno : hasSub markerFR a = false) :
    markerFR.isPrefixOf (a ++ (markerFR ++ b)) = false := by
  by_contra hcon
  have hpf : markerFR.isPrefixOf (a ++ (markerFR ++ b)) = true :=
    Bool.not_eq_false _ ▸ (by simpa using hcon)
  obtain ⟨t, ht⟩ := isPrefixOf_dest hpf
  have htake : markerFR = (a ++ (markerFR ++ b)).take markerFR.length := by
    rw [ht, List.take_left]
  rcases Nat.le_total markerFR.length a.length with hle | hle
  · -- the marker would fit inside `a`, contradicting `hno`
    have h1 : (a ++ (markerFR ++ b)).take markerFR.length = a.take markerFR.length := by
      rw [List.take_append_eq_append_take, Nat.sub_eq_zero_of_le hle, List.take_zero,
        List.append_nil]
    have h2 : markerFR = a.take markerFR.length := htake.trans h1
    have h3 : a = markerFR ++ a.drop markerFR.length := by
      conv_lhs => rw [← List.take_append_drop markerFR.length a]
      rw [← h2]
    have h4 : markerFR.isPrefixOf a = true := by
      rw [h3]; exact isPrefixOf_intro _ _
    rw [hasSub_of_isPrefixOf h4] at hno
    exact Bool.true_eq_false ▸ hno
  · -- `a` is shorter than the marker: a border of the marker would arise
    rcases Nat.lt_or_ge a.length markerFR.length with hlt | hge
    · set k := markerFR.length - a.length with hk
      have hk1 : 0 < k := by omega
      have hk2 : k < markerFR.length := by
        have : 0 < a.length := List.length_pos.mpr ha
        omega
      have h1 : (a ++ (markerFR ++ b)).take markerFR.length =
          a ++ (markerFR ++ b).take k := by
        rw [List.take_append_eq_append_take,
          List.take_all_of_le (by omega)]
      have h2 : (markerFR ++ b).take k = markerFR.take k := by
        rw [List.take_append_eq_append_take, Nat.sub_eq_zero_of_le (by omega),
          List.take_zero, List.append_nil]
      have h3 : markerFR = a ++ markerFR.take k := by
        conv_lhs => rw [htake, h1, h2]
      have h4 : markerFR.drop a.length = markerFR.take k := by
        conv_lhs => rw [h3]
        exact List.drop_left a _
      have h5 : a.length = markerFR.length - k := by omega
      exact markerFR_no_border k hk2 hk1 (by rw [← h4, h5])
    · -- equal lengths: `a` would be the marker itself
      have hlen : a.length = markerFR.length := by omega
      have h1 : (a ++ (markerFR ++ b)).take markerFR.length = a := by
        rw [← hlen, List.take_left]
      have h2 : a = markerFR := (htake.trans h1).symm
      have h4 : markerFR.isPrefixOf a = true := by
        rw [h2, ← List.append_nil markerFR]
        exact isPrefixOf_intro _ _
      rw [hasSub_of_isPrefixOf h4] at hno
      exact Bool.true_eq_false ▸ hno

/-- The first marker occurrence in `a ++ marker ++ b` is exactly after `a`
when `a` itself contains no marker. -/
theorem splitAtSub_marker_append (a b : Str) (hno : hasSub markerFR a = false) :
    splitAtSub markerFR (a ++ (markerFR ++ b)) = some (a, markerFR ++ b) := by
  induction a with
  | nil =>
    rw [List.nil_append]
    exact splitAtSub_of_isPrefixOf (isPrefixOf_intro _ _)
  | cons c a' ih =>
    have hno' : hasSub markerFR a' = false := by
      rw [hasSub_cons] at hno
      exact (Bool.or_eq_false_iff.mp hno).2
    have hpf := markerFR_not_prefix_of_append (c :: a') b (by simp) hno
    rw [List.cons_append] at hpf ⊢
    show splitAtSub markerFR (c :: (a' ++ (markerFR ++ b))) = _
    simp only [splitAtSub, hpf, Bool.false_eq_true, if_false, ih hno', Option.map_some']

/-- JS `model.split('/')[1] || model` — the second `'/'`-separated segment
when present and nonempty, otherwise the whole identifier. -/
def jsShortName (model : Str) : Str :=
  match (splitOnChar '/' model).get? 1 with
  | some seg => if seg = [] then model else seg
  | none => model

/-- `**name**`. -/
def boldWrap (s : Str) : Str := toL "**" ++ s ++ toL "**"

/-- JS `s.replace(new RegExp(pat, 'g'), rep)` for a literal pattern: replace
every leftmost non-overlapping occurrence, scanning the original text (an
inserted replacement is never rescanned).  An empty pattern is returned
unchanged (the component never builds one: labels are nonempty). -/
def jsReplace (pat rep : Str) (s : Str) : Str :=
  match pat, s with
  | [], _ => s
  | _ :: _, [] => []
  | p :: pt, c :: cs =>
    if (p :: pt).isPrefixOf (c :: cs) then
      rep ++ jsReplace (p :: pt) rep (cs.drop pt.length)
    else c :: jsReplace (p :: pt) rep cs
termination_by s.length
decreasing_by
  · simp only [List.length_cons, List.length_drop]
    omega
  · simp only [List.length_cons]
    omega

/-- The `FINAL RANKING:` truncation of `deAnonymizeText`:
`substring(0, indexOf(marker)).trim()` when the marker occurs. -/
def markerCut (text : Str) : Str :=
  match splitAtSub markerFR text with
  | some pr => jsTrim pr.1
  | none => text

/-- The `Object.entries(labelToModel).forEach` replacement loop. -/
def replaceEntries (entries : List (Str × Str)) (base : Str) : Str :=
  entries.foldl (fun r e => jsReplace e.1 (boldWrap (jsShortName e.2)) r) base

/-- `deAnonymizeText` from `Stage2.jsx`: identity when `labelToModel` is
null/undefined; otherwise cut at the first `FINAL RANKING:`, trim, and replace
every occurrence of each label by its model's bolded short name. -/
def deAnonymizeText (text : Str) (labelToModel : Option (List (Str × Str))) : Str :=
  match labelToModel with
  | none => text
  | some entries => replaceEntries entries (markerCut text)

theorem isPrefixOf_ne_nil_nil {p : Str} (hp : p ≠ []) : p.isPrefixOf ([] : Str) = false := by
  cases p with
  | nil => exact absurd rfl hp
  | cons c cs => rfl

/-- `jsReplace` replaces at the first occurrence, skips the matched region of
the original text, and continues — the defining recurrence of a global
literal-regex replace. -/
theorem jsReplace_splitAt (pat rep : Str) (hpat : pat ≠ []) (s : Str) :
    jsReplace pat rep s = match splitAtSub pat s with
      | none => s
      | some pr => pr.1 ++ rep ++ jsReplace pat rep (pr.2.drop pat.length) := by
  obtain ⟨p, pt, rfl⟩ : ∃ p pt, pat = p :: pt := by
    cases pat with
    | nil => exact absurd rfl hpat
    | cons p pt => exact ⟨p, pt, rfl⟩
  induction s with
  | nil =>
    simp only [splitAtSub, isPrefixOf_ne_nil_nil hpat, Bool.false_eq_true, if_false]
    simp [jsReplace]
  | cons c cs ih =>
    by_cases hp : (p :: pt).isPrefixOf (c :: cs)
    · simp only [jsReplace, if_pos hp, splitAtSub, List.nil_append, List.length_cons,
        List.drop_succ_cons]
    · simp only [jsReplace, hp, Bool.false_eq_true, if_false, splitAtSub]
      rw [ih]
      cases hsp : splitAtSub (p :: pt) cs with
      | none => rfl
      | some pr => rfl

/-- A text without the pattern is returned unchanged. -/
theorem jsReplace_of_no_occurrence (pat rep : Str) (hpat : pat ≠ []) (s : Str)
    (h : splitAtSub pat s = none) : jsReplace pat rep s = s := by
  rw [jsReplace_splitAt pat rep hpat s, h]

/-! ### Ranking Parser (spec §4.2)

Modelled from the spec: the backend Ranking Parser is not part of the
sources.  It scans the ranking section — the text after a `FINAL RANKING:`
marker when present, otherwise the whole text — extracts whitespace-separated
label tokens in the order the model listed them, discards tokens outside
`validLabels`, and deduplicates keeping the first occurrence; no input is an
error. -/

/-- Split on whitespace (empty pieces appear between adjacent separators). -/
def splitWs : Str → List Str
  | [] => [[]]
  | c :: cs =>
    if isJsSpace c then [] :: splitWs cs
    else
      match splitWs cs with
      | [] => [[c]]
      | l :: ls => (c :: l) :: ls

/-- The whitespace-separated tokens of a text. -/
def tokensOf (s : Str) : List Str :=
  (splitWs s).filter (fun t => t ≠ [])

/-- Keep the first occurrence of each element, dropping later repeats. -/
def dedupKeepFirst (seen : List Str) : List Str → List Str
  | [] => []
  | x :: xs =>
    if x ∈ seen then dedupKeepFirst seen xs
    else x :: dedupKeepFirst (x :: seen) xs

/-- Modelled from the spec: the ranking section — everything after the first
`FINAL RANKING:` marker when present (the authoritative source), otherwise the
whole raw text. -/
def rankingSection (text : Str) : Str :=
  match splitAtSub markerFR text with
  | some pr => pr.2.drop markerFR.length
  | none => text

/-- Modelled from the spec: `parse(rawText, validLabels)`. -/
def parseRanking (text : Str) (valid : List Str) : List Str :=
  dedupKeepFirst [] ((tokensOf (rankingSection text)).filter (fun t => t ∈ valid))

/-! ### Anonymizer (spec §4.1)

Modelled from the spec: labels are assigned deterministically by input order
over the successful Stage-1 members, using the alphabetic sequence A, B, …, Z,
AA, AB, … -/

/-- The `k`-th capital letter. -/
def letter (k : ℕ) : Char := Char.ofNat (65 + k)

/-- Inverse of `letter`. -/
def charIdx (c : Char) : ℕ := c.toNat - 65

/-- Bijective base-26 rendering, with explicit fuel so that evaluation is
structural; `labelChars` instantiates the fuel adequately. -/
def labelCharsAux : ℕ → ℕ → Str
  | 0, _ => []
  | fuel + 1, n =>
    if n < 26 then [letter n]
    else labelCharsAux fuel (n / 26 - 1) ++ [letter (n % 26)]

/-- Modelled from the spec: the label of the `n`-th successful member —
A … Z, then AA, AB, … -/
def labelChars (n : ℕ) : Str := labelCharsAux (n + 1) n

/-- The numeric value of a label string (bijective base 26, offset 1). -/
def labelVal (s : Str) : ℕ := s.foldl (fun acc c => acc * 26 + charIdx c + 1) 0

theorem charIdx_letter : ∀ k, k < 26 → charIdx (letter k) = k := by decide

theorem labelVal_append_letter (xs : Str) (c : Char) :
    labelVal (xs ++ [c]) = labelVal xs * 26 + charIdx c + 1 := by
  simp [labelVal, List.foldl_append]

theorem labelVal_labelCharsAux : ∀ fuel n, n < fuel →
    labelVal (labelCharsAux fuel n) = n + 1 := by
  intro fuel
  induction fuel with
  | zero => intro n h; omega
  | succ f ih =>
    intro n h
    by_cases h26 : n < 26
    · simp only [labelCharsAux, h26, if_true]
      have : labelVal [letter n] = charIdx (letter n) + 1 := by
        simp [labelVal]
      rw [this, charIdx_letter n h26]
    · have hlt : n / 26 - 1 < f := by
        have h1 : n / 26 < n := Nat.div_lt_self (by omega) (by omega)
        omega
      simp only [labelCharsAux, h26, if_false]
      rw [labelVal_append_letter, ih _ hlt, charIdx_letter (n % 26) (by omega)]
      omega

theorem labelVal_labelChars (n : ℕ) : labelVal (labelChars n) = n + 1 :=
  labelVal_labelCharsAux (n + 1) n (by omega)

theorem labelChars_injective {a b : ℕ} (h : labelChars a = labelChars b) : a = b := by
  have := labelVal_labelChars a
  rw [h, labelVal_labelChars b] at this
  omega

/-- The Stage-1 results whose call succeeded (no error recorded). -/
def successfulResults (rs : List Stage1Result) : List Stage1Result :=
  rs.filter (fun r => r.errMsg = none)

/-- Modelled from the spec: label assignment in input order, one label per
successful member, starting at index `i`. -/
def assignFrom (i : ℕ) : List Stage1Result → List (Str × Str)
  | [] => []
  | r :: t => (r.member, labelChars i) :: assignFrom (i + 1) t

/-- Modelled from the spec: `assignLabels` builds the LabelMap over the
successful Stage-1 members only. -/
def assignLabels (rs : List Stage1Result) : List (Str × Str) :=
  assignFrom 0 (successfulResults rs)

/-! ### Chairman Selector (spec §4.4) -/

inductive ChairmanConfig where
  | fixed (m : Str)
  | auto
deriving DecidableEq

inductive SelectErr where
  | noChairmanResolvable
deriving DecidableEq

/-- Modelled from the spec: a concrete configured chairman is returned
unchanged; in AUTO mode the first (best-ranked) entry with `votesCounted > 0`
wins; with no scorable entry the selection fails with `NoChairmanResolvable`. -/
def selectChairman : ChairmanConfig → List AggregateEntry → Except SelectErr Str
  | .fixed m, _ => .ok m
  | .auto, agg =>
    match agg.find? (fun e => 0 < e.votesCounted) with
    | some e => .ok e.member
    | none => .error .noChairmanResolvable

/-! ### Council Orchestrator and streaming contract (spec §4.5, §5, §6)

Modelled from the spec: the backend orchestrator is not part of the sources.
A run's inputs — the settled per-member gateway outcomes of each stage, the
chairman configuration, and an optional external cancellation point — are
data; `runCouncil` is the emitted event sequence. -/

inductive Event where
  | stage1Start
  | stage1Complete (results : List Stage1Result)
  | stage2Start
  | stage2Complete (results : List Stage2Result) (agg : List AggregateEntry)
  | stage3Start (chairman : Str)
  | stage3Complete (result : FinalResult)
  | complete
  | errorEv (msg : Str)

/-- One orchestration run's inputs.  `cancelAt = some k` (k = 1, 2, 3) aborts
the run while stage `k` is in flight. -/
structure RunInput where
  stage1 : List Stage1Result
  stage2 : List Stage2Result
  chairmanCfg : ChairmanConfig
  stage3 : Except Str Str
  cancelAt : Option ℕ

def cancelMsg : Str := toL "Cancelled"

def chairmanFailMsg : Str := toL "NoChairmanResolvable"

/-- Modelled from the spec: the event stream of one run — the stage sequence
`stage1_start … complete`, stopped by a single `error` event on cancellation,
on `NoChairmanResolvable`, or on a Stage-3 gateway failure. -/
def runCouncil (inp : RunInput) : List Event :=
  Event.stage1Start ::
    (if inp.cancelAt = some 1 then [Event.errorEv cancelMsg] else
      Event.stage1Complete inp.stage1 :: Event.stage2Start ::
        (if inp.cancelAt = some 2 then [Event.errorEv cancelMsg] else
          Event.stage2Complete inp.stage2
              (aggregate (assignLabels inp.stage1) inp.stage2) ::
            (match selectChairman inp.chairmanCfg
                (aggregate (assignLabels inp.stage1) inp.stage2) with
             | .error _ => [Event.errorEv chairmanFailMsg]
             | .ok ch =>
               Event.stage3Start ch ::
                 (if inp.cancelAt = some 3 then [Event.errorEv cancelMsg] else
                   match inp.stage3 with
                   | .error e => [Event.errorEv e]
                   | .ok txt =>
                     [Event.stage3Complete ⟨ch, txt⟩, Event.complete]))))

/-- Event kinds, payloads erased. -/
inductive ETag where
  | t1s | t1c | t2s | t2c | t3s | t3c | tdone | terr
deriving DecidableEq

def tagOf : Event → ETag
  | .stage1Start => .t1s
  | .stage1Complete _ => .t1c
  | .stage2Start => .t2s
  | .stage2Complete _ _ => .t2c
  | .stage3Start _ => .t3s
  | .stage3Complete _ => .t3c
  | .complete => .tdone
  | .errorEv _ => .terr

def tagTrace (tr : List Event) : List ETag := tr.map tagOf

/-- The full successful stage sequence of the streaming contract. -/
def fullTags : List ETag :=
  [.t1s, .t1c, .t2s, .t2c, .t3s, .t3c, .tdone]

/-- The traces the streaming contract allows: the full sequence, or a proper
stage prefix followed by a single `error` event that ends the stream. -/
def allowedTagTraces : List (List ETag) :=
  fullTags :: (List.range 7).map (fun k => fullTags.take k ++ [ETag.terr])

/-! ### Aggregate serialization and display (`Stage2.jsx` aggregate list) -/

/-- Modelled from the spec: the sentinel averageRank of a zero-vote member —
one past any attainable mean position, so it sorts after all scored members
and serializes as a number. -/
def sentinelRank (results : List Stage2Result) : ℚ :=
  ((results.map (fun r => r.parsedRanking.length)).sum : ℚ) + 1

/-- An `AggregateEntry` as the frontend receives it: `average_rank` is a JSON
number or absent. -/
structure WireAggEntry where
  model : Str
  average_rank : Option ℚ
  rankings_count : ℕ

/-- Modelled from the spec: serialization of an entry — mean position for a
scored member, the numeric sentinel for a zero-vote member. -/
def serializeEntry (results : List Stage2Result) (e : AggregateEntry) : WireAggEntry :=
  { model := e.member,
    average_rank :=
      some (if e.votesCounted = 0 then sentinelRank results else avgOf e),
    rankings_count := e.votesCounted }

/-- JS `toFixed(2)` as a rounding to hundredths. -/
def toFixed2 (q : ℚ) : ℚ := (round (q * 100) : ℤ) / 100

/-- One row of the `aggregate-list` rendering: rank position `#{index+1}`,
the model short name, `average_rank.toFixed(2)`, the vote count.  JS throws a
TypeError when `average_rank` is absent, modelled by `none`. -/
def displayAggRow (i : ℕ) (w : WireAggEntry) : Option (ℕ × Str × ℚ × ℕ) :=
  w.average_rank.map (fun q => (i + 1, jsShortName w.model, toFixed2 q, w.rankings_count))

/-! ### Shared concrete example data (spec §8) -/

def exS2A : Stage2Result := ⟨toL "M1", toL "", [toL "A", toL "B"], none⟩

def exS2B : Stage2Result := ⟨toL "M2", toL "", [toL "B", toL "A"], none⟩

def exResults : List Stage2Result := [exS2A, exS2B]

def exLabeled : List (Str × Str) :=
  [(toL "M1", toL "A"), (toL "M2", toL "B"), (toL "M3", toL "C")]

theorem dropLast_two_append (xs : List α) (a b : α) :
    (xs ++ [a, b]).dropLast.dropLast = xs := by
  rw [show xs ++ [a, b] = (xs ++ [a]) ++ [b] by simp]
  rw [List.dropLast_concat, List.dropLast_concat]

/-! ### Claim theorems -/

/-- C2 (amended): for every server-sent byte stream and every way it is split
into chunks, `sendMessageStream` invokes `onEvent` exactly once for each
newline-terminated line beginning with `data: ` whose payload parses, in the
order those lines occur — no event reordered, duplicated, or dropped — and a
line whose payload fails to parse is skipped without ending delivery; a final
line not terminated by a newline is never delivered. -/
theorem sendMessageStream_delivery (p : Str → Option ε) (chunks : List Str) :
    runStream p chunks = sseEvents p chunks.flatten :=
  runStream_eq_sseEvents p chunks

/-- A concrete JSON-parse oracle: the payload `1` (valid JSON) parses. -/
def pNum : Str → Option ℕ := fun s => if s = toL "1" then some 1 else none

/-- C2 (counterexample): the stream consisting of the single chunk
`"data: 1"` has one line, which begins with `data: ` and whose payload
parses, yet the loop delivers no event — the trailing unterminated line is
left in the buffer when `done` arrives and is dropped. -/
theorem sendMessageStream_drops_unterminated :
    runStream pNum [toL "data: 1"] = [] ∧
    lineEvent pNum (toL "data: 1") = some 1 := by
  constructor
  · decide
  · decide

/-- C8: each streaming-event handler of `handleSendMessage` (the six stage
cases) changes only the last message of the current conversation: every
earlier message and every non-message field of the conversation is unchanged,
and the message count is preserved. -/
theorem handlers_touch_only_last_message (ρ : Type) (c : Conversation ρ)
    (results : List Stage1Result) (s2res : List Stage2Result)
    (agg : List AggregateEntry) (ch : Str) (fr : FinalResult) :
    framePreserved (onStage1Start c) c ∧
    framePreserved (onStage1Complete results c) c ∧
    framePreserved (onStage2Start c) c ∧
    framePreserved (onStage2Complete s2res agg c) c ∧
    framePreserved (onStage3Start c) c ∧
    framePreserved (onStage3Complete fr c) c :=
  ⟨mapLastMessage_frame _ c, mapLastMessage_frame _ c, mapLastMessage_frame _ c,
    mapLastMessage_frame _ c, mapLastMessage_frame _ c, mapLastMessage_frame _ c⟩

/-- C9: when `sendMessageStream` throws after the optimistic user message and
assistant placeholder were appended — whatever events were handled before the
failure — the `catch` block drops exactly those two trailing messages,
restoring the message list (and every other conversation field) to its
pre-send state, and clears the loading flag. -/
theorem send_failure_rollback (ρ : Type) (st : AppState ρ) (content : Str)
    (files : List (Str × Str)) (evts : List FrontEvent) :
    (handleSendFailure st content files evts).conv.messages = st.conv.messages ∧
    (handleSendFailure st content files evts).conv.rest = st.conv.rest ∧
    (handleSendFailure st content files evts).isLoading = false := by
  have hmsg : ((st.conv.messages ++ [mkUserMessage content files]) ++
      [mkAssistantMessage]) =
      st.conv.messages ++ [mkUserMessage content files, mkAssistantMessage] := by
    simp
  obtain ⟨a', h1, h2⟩ := foldl_applyEvent_frame evts
    ⟨⟨(st.conv.messages ++ [mkUserMessage content files]) ++ [mkAssistantMessage],
        st.conv.rest⟩, true⟩
    st.conv.messages (mkUserMessage content files) mkAssistantMessage hmsg
  refine ⟨?_, ?_, rfl⟩
  · have hdef : (handleSendFailure st content files evts).conv.messages =
        (List.foldl applyEvent
          ⟨⟨(st.conv.messages ++ [mkUserMessage content files]) ++
              [mkAssistantMessage], st.conv.rest⟩, true⟩
          evts).conv.messages.dropLast.dropLast := rfl
    rw [hdef, h1, dropLast_two_append]
  · have hdef : (handleSendFailure st content files evts).conv.rest =
        (List.foldl applyEvent
          ⟨⟨(st.conv.messages ++ [mkUserMessage content files]) ++
              [mkAssistantMessage], st.conv.rest⟩, true⟩
          evts).conv.rest := rfl
    rw [hdef, h2]

/-- C1: every run's event stream is, stage payloads aside, either exactly
`stage1_start, stage1_complete, stage2_start, stage2_complete, stage3_start,
stage3_complete, complete`, or a prefix of that sequence followed by a single
`error` event that terminates the stream; no event of any other kind
appears. -/
theorem runCouncil_event_order (inp : RunInput) :
    tagTrace (runCouncil inp) ∈ allowedTagTraces := by
  unfold runCouncil tagTrace
  repeat' split
  all_goals simp only [List.map_cons, List.map_nil, tagOf]
  all_goals decide

/-- C5: the Chairman Selector returns a concretely configured chairman
unchanged (it need not have participated); in AUTO mode it returns the member
of the first (best-ranked) entry with `votesCounted > 0`; and when every entry
has zero votes it fails with `NoChairmanResolvable` — reported, never an
arbitrary member. -/
theorem selectChairman_spec :
    (∀ (m : Str) (agg : List AggregateEntry), selectChairman (.fixed m) agg = .ok m) ∧
    (∀ (pre : List AggregateEntry) (e : AggregateEntry) (post : List AggregateEntry),
      (∀ e' ∈ pre, e'.votesCounted = 0) → 0 < e.votesCounted →
      selectChairman .auto (pre ++ e :: post) = .ok e.member) ∧
    (∀ agg : List AggregateEntry, (∀ e ∈ agg, e.votesCounted = 0) →
      selectChairman .auto agg = .error .noChairmanResolvable) := by
  refine ⟨fun m agg => rfl, ?_, ?_⟩
  · intro pre e post hpre he
    induction pre with
    | nil =>
      simp only [List.nil_append, selectChairman]
      rw [List.find?_cons_of_pos _ (by simpa using he)]
    | cons x xs ih =>
      have hx : x.votesCounted = 0 := hpre x (List.mem_cons_self x xs)
      have hxs : ∀ e' ∈ xs, e'.votesCounted = 0 :=
        fun e' he' => hpre e' (List.mem_cons_of_mem x he')
      have := ih hxs
      simp only [List.cons_append, selectChairman] at this ⊢
      rw [List.find?_cons_of_neg _ (by simp [hx])]
      exact this
  · intro agg hall
    simp only [selectChairman]
    rw [List.find?_eq_none.mpr (fun e he => by simp [hall e he])]

/-- Spec §8 example aggregate: M3 with average rank 1.2 over five votes, M1
with 1.8 over five votes. -/
def exAggGood : List AggregateEntry :=
  [⟨toL "M3", toL "A", 6, 5, 0⟩, ⟨toL "M1", toL "B", 9, 5, 1⟩]

/-- Spec §8 example aggregate with a total ranking failure. -/
def exAggZero : List AggregateEntry :=
  [⟨toL "M1", toL "A", 0, 0, 0⟩, ⟨toL "M2", toL "B", 0, 0, 1⟩]

/-- C5 (witness): on the spec's examples — AUTO picks M3; all-zero fails. -/
theorem selectChairman_spec_witness :
    selectChairman .auto exAggGood = .ok (toL "M3") ∧
    selectChairman .auto exAggZero = .error .noChairmanResolvable ∧
    selectChairman (.fixed (toL "M9")) exAggZero = .ok (toL "M9") := by
  refine ⟨?_, ?_, ?_⟩
  · exact selectChairman_spec.2.1 [] ⟨toL "M3", toL "A", 6, 5, 0⟩
      [⟨toL "M1", toL "B", 9, 5, 1⟩] (by decide) (by decide)
  · exact selectChairman_spec.2.2 exAggZero (by decide)
  · exact selectChairman_spec.1 (toL "M9") exAggZero

theorem assignFrom_length : ∀ (l : List Stage1Result) (i : ℕ),
    (assignFrom i l).length = l.length := by
  intro l
  induction l with
  | nil => intro i; rfl
  | cons r t ih => intro i; simp [assignFrom, ih (i + 1)]

theorem assignFrom_map_fst : ∀ (l : List Stage1Result) (i : ℕ),
    (assignFrom i l).map Prod.fst = l.map (fun r => r.member) := by
  intro l
  induction l with
  | nil => intro i; rfl
  | cons r t ih => intro i; simp [assignFrom, ih (i + 1)]

theorem assignFrom_snd_mem : ∀ (l : List Stage1Result) (i : ℕ) (lab : Str),
    lab ∈ (assignFrom i l).map Prod.snd → ∃ j, i ≤ j ∧ lab = labelChars j := by
  intro l
  induction l with
  | nil => intro i lab h; simp [assignFrom] at h
  | cons r t ih =>
    intro i lab h
    simp only [assignFrom, List.map_cons, List.mem_cons] at h
    rcases h with h | h
    · exact ⟨i, le_refl i, h⟩
    · obtain ⟨j, hj, hl⟩ := ih (i + 1) lab h
      exact ⟨j, by omega, hl⟩

theorem assignFrom_snd_nodup : ∀ (l : List Stage1Result) (i : ℕ),
    ((assignFrom i l).map Prod.snd).Nodup := by
  intro l
  induction l with
  | nil => intro i; simp [assignFrom]
  | cons r t ih =>
    intro i
    simp only [assignFrom, List.map_cons, List.nodup_cons]
    refine ⟨fun hmem => ?_, ih (i + 1)⟩
    obtain ⟨j, hj, hl⟩ := assignFrom_snd_mem t (i + 1) _ hmem
    have := labelChars_injective hl
    omega

/-- C6: the LabelMap is a bijection between the labels and exactly the
members whose Stage-1 call succeeded: one entry per successful member, in
order; all labels distinct; given distinct member identifiers, all mapped
members distinct; and a member whose Stage-1 call failed receives no label. -/
theorem labelMap_bijection (rs : List Stage1Result) :
    (assignLabels rs).length = (successfulResults rs).length ∧
    ((assignLabels rs).map Prod.snd).Nodup ∧
    (assignLabels rs).map Prod.fst = (successfulResults rs).map (fun r => r.member) ∧
    ((rs.map (fun r => r.member)).Nodup → ((assignLabels rs).map Prod.fst).Nodup) ∧
    ((rs.map (fun r => r.member)).Nodup → ∀ r ∈ rs, r.errMsg.isSome →
      r.member ∉ (assignLabels rs).map Prod.fst) := by
  refine ⟨assignFrom_length _ 0, assignFrom_snd_nodup _ 0, assignFrom_map_fst _ 0,
    ?_, ?_⟩
  · intro hnodup
    unfold assignLabels
    rw [assignFrom_map_fst _ 0]
    exact List.Nodup.sublist
      (List.Sublist.map _ (List.filter_sublist rs)) hnodup
  · intro hnodup r hr herr hmem
    unfold assignLabels at hmem
    rw [assignFrom_map_fst _ 0] at hmem
    obtain ⟨r', hr', hmm⟩ := List.mem_map.mp hmem
    have hr'rs : r' ∈ rs := List.mem_of_mem_filter hr'
    have hr'none : r'.errMsg = none := by
      have := List.of_mem_filter hr'
      simpa using this
    have : r' = r := List.inj_on_of_nodup_map hnodup hr'rs hr hmm
    rw [this] at hr'none
    rw [hr'none] at herr
    simp at herr

/-- The spec §8 example: three members, the second failing in Stage 1. -/
def exStage1 : List Stage1Result :=
  [⟨toL "M1", some (toL "a1"), none⟩,
   ⟨toL "M2", none, some (toL "timeout")⟩,
   ⟨toL "M3", some (toL "a3"), none⟩]

/-- C6 (witness): on the example, two labels are assigned, `A` and `B`, all
distinct, and the failed member `M2` receives none. -/
theorem labelMap_bijection_witness :
    (assignLabels exStage1).length = 2 ∧
    ((assignLabels exStage1).map Prod.snd).Nodup ∧
    toL "M2" ∉ (assignLabels exStage1).map Prod.fst := by
  refine ⟨?_, (labelMap_bijection exStage1).2.1, ?_⟩
  · rw [(labelMap_bijection exStage1).1]
    decide
  · exact (labelMap_bijection exStage1).2.2.2.2 (by decide)
      ⟨toL "M2", none, some (toL "timeout")⟩ (by decide) (by decide)

theorem dedupKeepFirst_mem : ∀ (l seen : List Str) (x : Str),
    x ∈ dedupKeepFirst seen l ↔ (x ∈ l ∧ x ∉ seen) := by
  intro l
  induction l with
  | nil => intro seen x; simp [dedupKeepFirst]
  | cons y ys ih =>
    intro seen x
    simp only [dedupKeepFirst]
    by_cases hy : y ∈ seen
    · rw [if_pos hy, ih]
      constructor
      · rintro ⟨hx, hs⟩
        exact ⟨List.mem_cons_of_mem y hx, hs⟩
      · rintro ⟨hx, hs⟩
        rcases List.mem_cons.mp hx with rfl | hx
        · exact absurd hy hs
        · exact ⟨hx, hs⟩
    · rw [if_neg hy]
      simp only [List.mem_cons, ih]
      constructor
      · rintro (rfl | ⟨hx, hs⟩)
        · exact ⟨Or.inl rfl, hy⟩
        · exact ⟨Or.inr hx, fun hc => hs (Or.inr hc)⟩
      · rintro ⟨rfl | hx, hs⟩
        · exact Or.inl rfl
        · by_cases hxy : x = y
          · exact Or.inl hxy
          · exact Or.inr ⟨hx, fun hc => (hc.elim hxy hs)⟩

theorem dedupKeepFirst_nodup : ∀ (l seen : List Str), (dedupKeepFirst seen l).Nodup := by
  intro l
  induction l with
  | nil => intro seen; simp [dedupKeepFirst]
  | cons y ys ih =>
    intro seen
    simp only [dedupKeepFirst]
    by_cases hy : y ∈ seen
    · rw [if_pos hy]
      exact ih seen
    · rw [if_neg hy]
      refine List.nodup_cons.mpr ⟨fun hc => ?_, ih (y :: seen)⟩
      have := (dedupKeepFirst_mem ys (y :: seen) y).mp hc
      exact this.2 (List.mem_cons_self y seen)

theorem dedupKeepFirst_sublist : ∀ (l seen : List Str), (dedupKeepFirst seen l).Sublist l := by
  intro l
  induction l with
  | nil => intro seen; simp [dedupKeepFirst]
  | cons y ys ih =>
    intro seen
    simp only [dedupKeepFirst]
    by_cases hy : y ∈ seen
    · rw [if_pos hy]
      exact (ih seen).trans (List.sublist_cons_self y ys)
    · rw [if_neg hy]
      exact List.Sublist.cons₂ y (ih (y :: seen))

theorem rankingSection_marker (a b : Str) (hno : hasSub markerFR a = false) :
    rankingSection (a ++ (markerFR ++ b)) = b := by
  unfold rankingSection
  rw [splitAtSub_marker_append a b hno]
  exact List.drop_left markerFR b

/-- C4: the Ranking Parser returns the valid labels in the order the model
listed them (a subsequence of the valid-token occurrence list), keeps only the
first occurrence of a repeat, discards tokens outside the valid set, and reads
only the text after a `FINAL RANKING:` marker when one is present; the spec's
example text yields `[B, A]`; inputs with no extractable label yield the empty
sequence rather than an error. -/
theorem parseRanking_spec :
    parseRanking (toL "FINAL RANKING:\n1. B\n2. A\n3. B")
      [toL "A", toL "B", toL "C"] = [toL "B", toL "A"] ∧
    (∀ t v, (parseRanking t v).Nodup) ∧
    (∀ t v, (parseRanking t v).Sublist
      ((tokensOf (rankingSection t)).filter (fun tok => tok ∈ v))) ∧
    (∀ t v l, l ∈ parseRanking t v → l ∈ v ∧ l ∈ tokensOf (rankingSection t)) ∧
    (∀ t v, (∀ tok ∈ tokensOf (rankingSection t), tok ∉ v) → parseRanking t v = []) ∧
    (∀ a b v, hasSub markerFR a = false →
      parseRanking (a ++ (markerFR ++ b)) v =
        dedupKeepFirst [] ((tokensOf b).filter (fun tok => tok ∈ v))) := by
  refine ⟨by decide, fun t v => dedupKeepFirst_nodup _ [], fun t v =>
    dedupKeepFirst_sublist _ [], ?_, ?_, ?_⟩
  · intro t v l hl
    have h1 := ((dedupKeepFirst_mem _ [] l).mp hl).1
    have h2 := List.mem_filter.mp h1
    exact ⟨by simpa using h2.2, h2.1⟩
  · intro t v hnone
    unfold parseRanking
    rw [List.filter_eq_nil_iff.mpr (fun tok htok => by simpa using hnone tok htok)]
    rfl
  · intro a b v hno
    unfold parseRanking
    rw [rankingSection_marker a b hno]

/-- C4 (witness): marker precedence on a concrete text, and the empty result
on a text with no valid label. -/
theorem parseRanking_spec_witness :
    parseRanking ((toL "intro ") ++ (markerFR ++ toL " 1. B")) [toL "A", toL "B"] =
      dedupKeepFirst []
        ((tokensOf (toL " 1. B")).filter (fun tok => tok ∈ [toL "A", toL "B"])) ∧
    parseRanking (toL "nothing here") [toL "A"] = [] :=
  ⟨parseRanking_spec.2.2.2.2.2 (toL "intro ") (toL " 1. B") [toL "A", toL "B"]
      (by decide),
    parseRanking_spec.2.2.2.2.1 (toL "nothing here") [toL "A"] (by decide)⟩

/-- C3: `aggregate` covers the labeled members; `votesCounted` counts exactly
the results whose ranking contains the label and `averageRank` is the
arithmetic mean of the label's 1-indexed positions there; the output is sorted
by `entryLe` — ascending average rank (the cross-multiplied comparison agrees
with the rational means on scored entries), ties broken by higher
`votesCounted`, then original roster order. -/
theorem aggregate_consensus (labeled : List (Str × Str)) (results : List Stage2Result) :
    ((aggregate labeled results).map (fun e => (e.member, e.label))).Perm labeled ∧
    List.Sorted entryLe (aggregate labeled results) ∧
    (∀ e ∈ aggregate labeled results,
      e.votesCounted = votesFor results e.label ∧
      e.sumPos = (positionsOf results e.label).sum ∧
      (0 < e.votesCounted → avgOf e = meanPositions results e.label)) ∧
    (∀ a b : AggregateEntry, 0 < a.votesCounted → 0 < b.votesCounted →
      ((meanLt a b ↔ avgOf a < avgOf b) ∧ (meanEqv a b ↔ avgOf a = avgOf b))) := by
  refine ⟨aggregate_map_perm labeled results, aggregate_sorted labeled results, ?_, ?_⟩
  · intro e he
    obtain ⟨-, hsum, hvotes⟩ := aggregate_mem labeled results e he
    refine ⟨hvotes, hsum, fun hpos => ?_⟩
    unfold avgOf meanPositions
    rw [hsum, hvotes]
    rfl
  · intro a b ha hb
    have ha' : (0 : ℚ) < (a.votesCounted : ℚ) := by exact_mod_cast ha
    have hb' : (0 : ℚ) < (b.votesCounted : ℚ) := by exact_mod_cast hb
    constructor
    · constructor
      · rintro (⟨-, hb0⟩ | ⟨-, -, hlt⟩)
        · omega
        · unfold avgOf
          rw [div_lt_div_iff ha' hb']
          exact_mod_cast hlt
      · intro hlt
        unfold avgOf at hlt
        rw [div_lt_div_iff ha' hb'] at hlt
        exact Or.inr ⟨ha, hb, by exact_mod_cast hlt⟩
    · constructor
      · rintro (⟨ha0, -⟩ | ⟨-, -, heq⟩)
        · omega
        · unfold avgOf
          rw [div_eq_div_iff (ne_of_gt ha') (ne_of_gt hb')]
          exact_mod_cast heq
      · intro heq
        unfold avgOf at heq
        rw [div_eq_div_iff (ne_of_gt ha') (ne_of_gt hb')] at heq
        exact Or.inr ⟨ha, hb, by exact_mod_cast heq⟩

/-- C3 (witness): on the spec's example — A ranked [1,2], B ranked [2,1],
C never mentioned — the output is sorted, C's entry counts zero votes, and
A's average rank is the mean of its positions. -/
theorem aggregate_consensus_witness :
    List.Sorted entryLe (aggregate exLabeled exResults) ∧
    (⟨toL "M3", toL "C", 0, 0, 2⟩ : AggregateEntry).votesCounted =
      votesFor exResults (toL "C") ∧
    avgOf ⟨toL "M1", toL "A", 3, 2, 0⟩ = meanPositions exResults (toL "A") := by
  refine ⟨(aggregate_consensus exLabeled exResults).2.1, ?_, ?_⟩
  · exact ((aggregate_consensus exLabeled exResults).2.2.1
      ⟨toL "M3", toL "C", 0, 0, 2⟩ (by decide)).1
  · exact ((aggregate_consensus exLabeled exResults).2.2.1
      ⟨toL "M1", toL "A", 3, 2, 0⟩ (by decide)).2.2 (by decide)

theorem pairwise_idx_of_zero : ∀ l : List AggregateEntry, List.Pairwise entryLe l →
    (∀ e ∈ l, e.votesCounted = 0) →
    List.Pairwise (fun a b : AggregateEntry => a.rosterIdx ≤ b.rosterIdx) l := by
  intro l
  induction l with
  | nil => intro _ _; exact List.Pairwise.nil
  | cons x xs ih =>
    intro hp hall
    rw [List.pairwise_cons] at hp ⊢
    refine ⟨fun b hb => ?_,
      ih hp.2 (fun e he => hall e (List.mem_cons_of_mem x he))⟩
    have hx := hall x (List.mem_cons_self x xs)
    have hbz := hall b (List.mem_cons_of_mem x hb)
    rcases hp.1 b hb with h | ⟨-, ht⟩
    · rcases h with ⟨hx', -⟩ | ⟨hx', -, -⟩ <;> omega
    · rcases ht with h | ⟨-, hle⟩
      · omega
      · exact hle

/-- C7: the `AggregateEntry` sequence covers exactly the labeled members; a
zero-vote member still appears — with no recorded positions and the numeric
sentinel as its serialized `average_rank` — sorted after every scored member,
in roster order among zero-vote members; and the `Stage2.jsx` aggregate
display row is defined on every serialized entry. -/
theorem aggregate_zero_vote_entries (labeled : List (Str × Str))
    (results : List Stage2Result) :
    ((aggregate labeled results).map (fun e => (e.member, e.label))).Perm labeled ∧
    (∀ e ∈ aggregate labeled results, e.votesCounted = 0 →
      positionsOf results e.label = [] ∧
      (serializeEntry results e).average_rank = some (sentinelRank results)) ∧
    (∀ i j : Fin (aggregate labeled results).length, i < j →
      ((aggregate labeled results).get i).votesCounted = 0 →
      ((aggregate labeled results).get j).votesCounted = 0) ∧
    ((aggregate labeled results).filter
      (fun e => e.votesCounted = 0)).Pairwise
      (fun a b : AggregateEntry => a.rosterIdx ≤ b.rosterIdx) ∧
    (∀ e ∈ aggregate labeled results, ∀ i : ℕ,
      (displayAggRow i (serializeEntry results e)).isSome = true) := by
  refine ⟨aggregate_map_perm labeled results, ?_, ?_, ?_, ?_⟩
  · intro e he hz
    obtain ⟨-, -, hvotes⟩ := aggregate_mem labeled results e he
    have hlen : (positionsOf results e.label).length = 0 := by
      have : votesFor results e.label = 0 := by omega
      unfold votesFor at this
      exact this
    refine ⟨List.length_eq_zero.mp hlen, ?_⟩
    simp [serializeEntry, hz]
  · intro i j hij hzi
    have hp := aggregate_sorted labeled results
    have := List.pairwise_iff_get.mp hp i j hij
    rcases this with h | ⟨he, -⟩
    · rcases h with ⟨hx', -⟩ | ⟨hx', -, -⟩ <;> omega
    · rcases he with ⟨-, hz⟩ | ⟨hx', -, -⟩
      · exact hz
      · omega
  · refine pairwise_idx_of_zero _
      (List.Pairwise.filter _ (aggregate_sorted labeled results)) ?_
    intro e he
    have := List.of_mem_filter he
    simpa using this
  · intro e he i
    rfl

/-- C7 (witness): the never-mentioned label C still yields an entry — zero
votes, empty position list, sentinel average — and its display row exists. -/
theorem aggregate_zero_vote_entries_witness :
    positionsOf exResults (toL "C") = [] ∧
    (serializeEntry exResults ⟨toL "M3", toL "C", 0, 0, 2⟩).average_rank =
      some (sentinelRank exResults) ∧
    (displayAggRow 2 (serializeEntry exResults
      ⟨toL "M3", toL "C", 0, 0, 2⟩)).isSome = true := by
  obtain ⟨h1, h2⟩ := (aggregate_zero_vote_entries exLabeled exResults).2.1
    ⟨toL "M3", toL "C", 0, 0, 2⟩ (by decide) (by decide)
  exact ⟨h1, h2, (aggregate_zero_vote_entries exLabeled exResults).2.2.2.2
    ⟨toL "M3", toL "C", 0, 0, 2⟩ (by decide) 2⟩

theorem splitOnChar_head (sep : Char) (y : Str) :
    ∃ rest, splitOnChar sep y = (y.takeWhile (fun c => c != sep)) :: rest := by
  induction y with
  | nil => exact ⟨[], rfl⟩
  | cons c cs ih =>
    by_cases hc : c = sep
    · subst hc
      refine ⟨splitOnChar c cs, ?_⟩
      simp [splitOnChar, List.takeWhile]
    · obtain ⟨rest, hrest⟩ := ih
      refine ⟨rest, ?_⟩
      simp only [splitOnChar, if_neg hc, hrest, List.takeWhile]
      have : (c != sep) = true := by simp [hc]
      rw [this]

theorem splitOnChar_sep_append (sep : Char) (x y : Str) (hx : sep ∉ x) :
    splitOnChar sep (x ++ sep :: y) = x :: splitOnChar sep y := by
  induction x with
  | nil => simp [splitOnChar]
  | cons c x' ih =>
    have hc : c ≠ sep := fun h => hx (h ▸ List.mem_cons_self c x')
    have hx' : sep ∉ x' := fun h => hx (List.mem_cons_of_mem c h)
    rw [List.cons_append]
    simp only [splitOnChar, if_neg hc, ih hx']

/-- The original claim's reading of the short name: everything after the
first `/`, or the whole identifier when it has none. -/
def claimShortName (model : Str) : Str :=
  match splitAtSub (toL "/") model with
  | some pr => pr.2.drop 1
  | none => model

/-- C10 (counterexample): for the entry `(L, a/b/c)` the code replaces the
label by `**b**` — `split('/')[1]` is the second segment only — while the
claim's short name (the part after `/`) is `b/c`, so the claimed output
`**b/c**` differs from the actual one. -/
theorem deAnonymizeText_shortname_counterexample :
    deAnonymizeText (toL "L") (some [(toL "L", toL "a/b/c")]) = toL "**b**" ∧
    boldWrap (claimShortName (toL "a/b/c")) = toL "**b/c**" ∧
    toL "**b**" ≠ toL "**b/c**" := by
  refine ⟨?_, by decide, by decide⟩
  show replaceEntries [(toL "L", toL "a/b/c")] (markerCut (toL "L")) = toL "**b**"
  rw [show markerCut (toL "L") = toL "L" from by decide]
  show jsReplace (toL "L") (boldWrap (jsShortName (toL "a/b/c"))) (toL "L") = toL "**b**"
  rw [show boldWrap (jsShortName (toL "a/b/c")) = toL "**b**" from by decide]
  rw [jsReplace_splitAt _ _ (by decide)]
  rw [show splitAtSub (toL "L") (toL "L") = some ([], toL "L") from by decide]
  show ([] : Str) ++ toL "**b**" ++
    jsReplace (toL "L") (toL "**b**") (List.drop (toL "L").length (toL "L")) = toL "**b**"
  rw [jsReplace_splitAt _ _ (by decide)]
  rw [show splitAtSub (toL "L") (List.drop (toL "L").length (toL "L")) = none from
    by decide]
  decide

/-- C10 (amended): `deAnonymizeText` returns the text unchanged when
`labelToModel` is null/undefined; otherwise it processes only the part of the
input before the first `FINAL RANKING:` occurrence (trimmed), replacing — per
entry, at every leftmost non-overlapping match of the label — the label by the
model's short name wrapped in `**`, where the short name is the part after the
first `/` up to the next `/` when that segment is nonempty, and the full
identifier otherwise. -/
theorem deAnonymizeText_spec :
    (∀ t, deAnonymizeText t none = t) ∧
    (∀ a b m, hasSub markerFR a = false →
      deAnonymizeText (a ++ (markerFR ++ b)) (some m) = replaceEntries m (jsTrim a)) ∧
    (∀ t m, splitAtSub markerFR t = none →
      deAnonymizeText t (some m) = replaceEntries m t) ∧
    (∀ pat rep s, pat ≠ [] →
      jsReplace pat rep s = (match splitAtSub pat s with
        | none => s
        | some pr => pr.1 ++ rep ++ jsReplace pat rep (pr.2.drop pat.length))) ∧
    (∀ x y, '/' ∉ x →
      jsShortName (x ++ '/' :: y) =
        (if y.takeWhile (fun c => c != '/') = [] then x ++ '/' :: y
         else y.takeWhile (fun c => c != '/'))) ∧
    (∀ mdl, '/' ∉ mdl → jsShortName mdl = mdl) := by
  refine ⟨fun t => rfl, ?_, ?_, fun pat rep s h => jsReplace_splitAt pat rep h s, ?_, ?_⟩
  · intro a b m hno
    show replaceEntries m (markerCut (a ++ (markerFR ++ b))) = _
    unfold markerCut
    rw [splitAtSub_marker_append a b hno]
  · intro t m hnone
    show replaceEntries m (markerCut t) = _
    unfold markerCut
    rw [hnone]
  · intro x y hx
    obtain ⟨rest, hsplit⟩ := splitOnChar_head '/' y
    unfold jsShortName
    rw [splitOnChar_sep_append '/' x y hx, hsplit]
    rfl
  · intro mdl hmdl
    unfold jsShortName
    rw [splitOnChar_of_no_sep '/' mdl hmdl]
    rfl

/-- C10 (witness): on concrete inputs — text after the marker is ignored, a
two-slash identifier yields its middle segment, a slash-free identifier is
kept whole. -/
theorem deAnonymizeText_spec_witness :
    deAnonymizeText ((toL "Review ") ++ (markerFR ++ toL " 1. A"))
        (some [(toL "A", toL "x/y")]) =
      replaceEntries [(toL "A", toL "x/y")] (jsTrim (toL "Review ")) ∧
    jsShortName ((toL "x") ++ '/' :: (toL "y/z")) =
      (if (toL "y/z").takeWhile (fun c => c != '/') = []
       then (toL "x") ++ '/' :: (toL "y/z")
       else (toL "y/z").takeWhile (fun c => c != '/')) ∧
    jsShortName (toL "plainmodel") = toL "plainmodel" :=
  ⟨deAnonymizeText_spec.2.1 (toL "Review ") (toL " 1. A") [(toL "A", toL "x/y")]
      (by decide),
    deAnonymizeText_spec.2.2.2.2.1 (toL "x") (toL "y/z") (by decide),
    deAnonymizeText_spec.2.2.2.2.2 (toL "plainmodel") (by decide)⟩
